import Mathlib

/-!
# Verification of the filing-JSON document normalizer

A shallow embedding of the normalization core of `convert_filing_json.py`:
the functions `transform_sections`, `transform_parts`, `transform_document`
and the batch dispatch in `main` (lines 130-133).

JSON values are modelled by `Json`; Python dicts are association lists in
insertion order (Python 3.7+ dicts preserve insertion order).  Python's
`d.get(k)` (returning `None` when absent) is `pyGet`; `{**d, k: v}` and
`d[k] = v` (replace in place when present, append when absent) is `dictSet`;
Python truthiness is `truthy`.  Python `==` on parsed JSON values — which
compares dicts by key set, ignoring insertion order — is modelled by `pyEq`.
-/

set_option maxHeartbeats 1000000

/-- A JSON value.  Objects keep their key/value pairs in insertion order,
like Python dicts do. -/
inductive Json where
  | null : Json
  | bool : Bool → Json
  | num : Int → Json
  | str : String → Json
  | arr : List Json → Json
  | obj : List (String × Json) → Json
deriving Repr

/-- First-match association-list lookup: Python `k in d` / `d[k]` position. -/
def dictGet : List (String × Json) → String → Option Json
  | [], _ => none
  | (k', v) :: rest, k => if k' = k then some v else dictGet rest k

/-- Python `d.get(k)`: `None` when the key is absent. -/
def pyGet (kvs : List (String × Json)) (k : String) : Json :=
  match dictGet kvs k with
  | some v => v
  | none => Json.null

/-- Python `k in d`. -/
def hasKey (kvs : List (String × Json)) (k : String) : Bool :=
  (dictGet kvs k).isSome

/-- Python `{**d, k: v}` / `d[k] = v`: replace the first binding of `k`
in place, or append the pair at the end when `k` is absent. -/
def dictSet : List (String × Json) → String → Json → List (String × Json)
  | [], k, v => [(k, v)]
  | (k', v') :: rest, k, v =>
    if k' = k then (k, v) :: rest else (k', v') :: dictSet rest k v

/-- Python truthiness of a JSON value: `None`, `False`, `0`, `""`, `[]`
and `{}` are falsy, everything else is truthy. -/
def truthy : Json → Bool
  | .null => false
  | .bool b => b
  | .num n => n != 0
  | .str s => s != ""
  | .arr xs => !xs.isEmpty
  | .obj kvs => !kvs.isEmpty

/-- The list branch of `transform_sections` (lines 43-52 of
`convert_filing_json.py`): the loop `for idx, sec in enumerate(sections_obj)`
keeps exactly the dict elements, giving each a derived
`section_id = f"section_{idx}"` when the key is absent. -/
def sectionsFromList : Nat → List Json → List Json
  | _, [] => []
  | idx, sec :: rest =>
    match sec with
    | .obj kvs =>
      (if hasKey kvs "section_id" then Json.obj kvs
       else Json.obj (kvs ++ [("section_id", Json.str ("section_" ++ Nat.repr idx))]))
        :: sectionsFromList (idx + 1) rest
    | _ => sectionsFromList (idx + 1) rest

/-- The mapping branch of `transform_sections` (lines 53-61): each
`(key, value)` pair becomes `{**value, "section_id": key}` when `value` is a
dict, and the wrapper `{"section_id": key, "value": value}` otherwise. -/
def sectionsFromDict : List (String × Json) → List Json
  | [] => []
  | (key, value) :: rest =>
    (match value with
     | .obj fields => Json.obj (dictSet fields "section_id" (Json.str key))
     | v => Json.obj [("section_id", Json.str key), ("value", v)])
      :: sectionsFromDict rest

/-- `transform_sections` (lines 36-62 of `convert_filing_json.py`). -/
def transform_sections : Json → List Json
  | .arr xs => sectionsFromList 0 xs
  | .obj kvs => sectionsFromDict kvs
  | _ => []

/-- One iteration of the list branch of `transform_parts` (lines 71-84):
non-dict elements are skipped (`continue`); a dict element keeps its other
fields, gets its sections normalized (appended last, since `"sections"` was
removed first), and gets `part_name` defaulted to `part_name or "Part"` when
the current value is falsy. -/
def partFromListElem : Json → Option Json
  | .obj part =>
    let part_name := pyGet part "part_name"
    let sections := transform_sections (pyGet part "sections")
    let base := (part.filter fun kv => kv.1 != "sections") ++ [("sections", Json.arr sections)]
    some (Json.obj
      (if truthy (pyGet base "part_name") then base
       else dictSet base "part_name" (if truthy part_name then part_name else Json.str "Part")))
  | _ => none

/-- One iteration of the mapping branch of `transform_parts` (lines 86-99):
a dict value keeps its other fields, gets
`part_name = value.get("part_name") or key` and normalized sections;
a non-dict value is wrapped as `{"part_name": key, "value": value,
"sections": []}`. -/
def partFromDictEntry : String × Json → Json
  | (key, .obj value) =>
    let part_name := if truthy (pyGet value "part_name") then pyGet value "part_name"
                     else Json.str key
    let sections := transform_sections (pyGet value "sections")
    Json.obj (dictSet (value.filter fun kv => kv.1 != "sections") "part_name" part_name
      ++ [("sections", Json.arr sections)])
  | (key, v) => Json.obj [("part_name", Json.str key), ("value", v), ("sections", Json.arr [])]

/-- `transform_parts` (lines 64-102 of `convert_filing_json.py`). -/
def transform_parts : Json → List Json
  | .arr xs => xs.filterMap partFromListElem
  | .obj kvs => kvs.map partFromDictEntry
  | _ => []

/-- `transform_document` (lines 104-114): keep every top-level field except
`parts` (in order), then append `parts` as the normalized list. -/
def transform_document (doc : List (String × Json)) : List (String × Json) :=
  (doc.filter fun kv => kv.1 != "parts")
    ++ [("parts", Json.arr (transform_parts (pyGet doc "parts")))]

/-- `isinstance(x, list)`. -/
def isArr : Json → Bool
  | .arr _ => true
  | _ => false

/-- `isinstance(x, dict)`. -/
def isObj : Json → Bool
  | .obj _ => true
  | _ => false

/-- The batch dispatch of `main` (lines 130-133): a top-level list maps
`transform_document` over its dict elements; a top-level dict is transformed
directly (not wrapped); anything else makes `transform_document` raise
(`doc.items()` on a non-dict), modelled as `none`. -/
def normalize_batch : Json → Option Json
  | .arr ds =>
    some (Json.arr (ds.filterMap fun d =>
      match d with
      | .obj kvs => some (Json.obj (transform_document kvs))
      | _ => none))
  | .obj kvs => some (Json.obj (transform_document kvs))
  | _ => none

/-! ### Association-list lookup lemmas -/

theorem dictGet_append_left {a : List (String × Json)} {k : String} {v : Json}
    (b : List (String × Json)) (h : dictGet a k = some v) :
    dictGet (a ++ b) k = some v := by
  induction a with
  | nil => simp [dictGet] at h
  | cons kv rest ih =>
    obtain ⟨k', v'⟩ := kv
    by_cases hk : k' = k
    · subst hk
      simpa [dictGet] using h
    · simp only [dictGet, if_neg hk] at h
      simpa [dictGet, hk] using ih h

theorem dictGet_append_right {a : List (String × Json)} {k : String}
    (b : List (String × Json)) (h : dictGet a k = none) :
    dictGet (a ++ b) k = dictGet b k := by
  induction a with
  | nil => simp
  | cons kv rest ih =>
    obtain ⟨k', v'⟩ := kv
    by_cases hk : k' = k
    · simp [dictGet, hk] at h
    · simp only [dictGet, if_neg hk] at h
      simpa [dictGet, hk] using ih h

theorem dictGet_filter_ne (l : List (String × Json)) {s k : String} (h : k ≠ s) :
    dictGet (l.filter fun kv => kv.1 != s) k = dictGet l k := by
  induction l with
  | nil => rfl
  | cons kv rest ih =>
    obtain ⟨k', v'⟩ := kv
    by_cases hs : k' = s
    · subst hs
      have hne : k' ≠ k := fun hh => h hh.symm
      simp [dictGet, hne, ih]
    · by_cases hk : k' = k
      · subst hk
        simp [dictGet, hs]
      · simp [dictGet, hs, hk, ih]

theorem dictGet_filter_self (l : List (String × Json)) (s : String) :
    dictGet (l.filter fun kv => kv.1 != s) s = none := by
  induction l with
  | nil => rfl
  | cons kv rest ih =>
    obtain ⟨k', v'⟩ := kv
    by_cases hs : k' = s
    · simp [dictGet, hs, ih]
    · simp [dictGet, hs, ih]

theorem dictGet_dictSet_self (l : List (String × Json)) (k : String) (v : Json) :
    dictGet (dictSet l k v) k = some v := by
  induction l with
  | nil => simp [dictSet, dictGet]
  | cons kv rest ih =>
    obtain ⟨k', v'⟩ := kv
    by_cases hk : k' = k
    · simp [dictSet, hk, dictGet]
    · simp [dictSet, hk, dictGet, ih]

theorem dictGet_dictSet_ne (l : List (String × Json)) {k k' : String} (v : Json)
    (h : k' ≠ k) : dictGet (dictSet l k v) k' = dictGet l k' := by
  have h' : k ≠ k' := Ne.symm h
  induction l with
  | nil => simp [dictSet, dictGet, h']
  | cons kv rest ih =>
    obtain ⟨k₀, v₀⟩ := kv
    by_cases hk : k₀ = k
    · subst hk
      simp [dictSet, dictGet, h']
    · simp [dictSet, hk, dictGet, ih]

theorem pyGet_eq_of_dictGet {l : List (String × Json)} {k : String} {v : Json}
    (h : dictGet l k = some v) : pyGet l k = v := by
  simp [pyGet, h]

theorem mem_keys_iff_isSome (l : List (String × Json)) (k : String) :
    k ∈ l.map Prod.fst ↔ (dictGet l k).isSome := by
  induction l with
  | nil => simp [dictGet]
  | cons kv rest ih =>
    obtain ⟨k', v'⟩ := kv
    by_cases hk : k' = k
    · simp [dictGet, hk]
    · have hk' : k ≠ k' := Ne.symm hk
      simp [dictGet, hk, hk', ih]

theorem dictGet_of_keysNodup_mem {l : List (String × Json)} {k : String} {v : Json}
    (hnd : (l.map Prod.fst).Nodup) (hm : (k, v) ∈ l) : dictGet l k = some v := by
  induction l with
  | nil => simp at hm
  | cons kv rest ih =>
    obtain ⟨k', v'⟩ := kv
    simp only [List.map_cons, List.nodup_cons] at hnd
    rcases List.mem_cons.mp hm with h | h
    · cases h
      simp [dictGet]
    · have hk : k' ≠ k := by
        intro hh
        subst hh
        exact hnd.1 (List.mem_map.mpr ⟨(k', v), h, rfl⟩)
      simp [dictGet, hk, ih hnd.2 h]

/-! ### Key deduplication (Python dicts never hold duplicate keys; `dedupKeys`
keeps the first binding of each key, so that first-match lookup is preserved) -/

def dedupKeysAux : List String → List (String × Json) → List (String × Json)
  | _, [] => []
  | seen, (k, v) :: rest =>
    if k ∈ seen then dedupKeysAux seen rest
    else (k, v) :: dedupKeysAux (k :: seen) rest

def dedupKeys (l : List (String × Json)) : List (String × Json) :=
  dedupKeysAux [] l

theorem sizeOf_dedupKeysAux_le (seen : List String) (l : List (String × Json)) :
    sizeOf (dedupKeysAux seen l) ≤ sizeOf l := by
  induction l generalizing seen with
  | nil => simp [dedupKeysAux]
  | cons kv rest ih =>
    obtain ⟨k, v⟩ := kv
    by_cases hc : k ∈ seen
    · have h1 := ih seen
      simp only [dedupKeysAux, if_pos hc]
      simp only [List.cons.sizeOf_spec]
      omega
    · have h1 := ih (k :: seen)
      simp only [dedupKeysAux, if_neg hc]
      simp only [List.cons.sizeOf_spec]
      omega

theorem dictGet_dedupKeysAux {seen : List String} (l : List (String × Json))
    {k : String} (h : k ∉ seen) :
    dictGet (dedupKeysAux seen l) k = dictGet l k := by
  induction l generalizing seen with
  | nil => rfl
  | cons kv rest ih =>
    obtain ⟨k', v'⟩ := kv
    by_cases hc : k' ∈ seen
    · have hk : k' ≠ k := by
        intro hh
        subst hh
        exact h hc
      simp [dedupKeysAux, hc, dictGet, hk, ih h]
    · by_cases hk : k' = k
      · subst hk
        simp [dedupKeysAux, hc, dictGet]
      · have hseen : k ∉ k' :: seen := by
          intro hh
          rcases List.mem_cons.mp hh with hh | hh
          · exact hk hh.symm
          · exact h hh
        simp [dedupKeysAux, hc, dictGet, hk, ih hseen]

theorem dictGet_dedupKeys (l : List (String × Json)) (k : String) :
    dictGet (dedupKeys l) k = dictGet l k :=
  dictGet_dedupKeysAux l (List.not_mem_nil k)

theorem mem_of_mem_dedupKeysAux {seen : List String} {l : List (String × Json)}
    {kv : String × Json} (h : kv ∈ dedupKeysAux seen l) : kv ∈ l := by
  induction l generalizing seen with
  | nil => simp [dedupKeysAux] at h
  | cons kv' rest ih =>
    obtain ⟨k', v'⟩ := kv'
    by_cases hc : k' ∈ seen
    · simp only [dedupKeysAux, if_pos hc] at h
      exact List.mem_cons_of_mem _ (ih h)
    · simp only [dedupKeysAux, if_neg hc, List.mem_cons] at h
      rcases h with h | h
      · exact List.mem_cons.mpr (Or.inl h)
      · exact List.mem_cons_of_mem _ (ih h)

theorem dedupKeysAux_keys_spec (seen : List String) (l : List (String × Json)) :
    ((dedupKeysAux seen l).map Prod.fst).Nodup ∧
      ∀ k ∈ seen, k ∉ (dedupKeysAux seen l).map Prod.fst := by
  induction l generalizing seen with
  | nil => simp [dedupKeysAux]
  | cons kv rest ih =>
    obtain ⟨k', v'⟩ := kv
    by_cases hc : k' ∈ seen
    · simpa [dedupKeysAux, hc] using ih seen
    · have ih' := ih (k' :: seen)
      simp only [dedupKeysAux, if_neg hc, List.map_cons, List.nodup_cons]
      refine ⟨⟨ih'.2 k' (List.mem_cons_self k' seen), ih'.1⟩, ?_⟩
      intro k hk
      simp only [List.mem_cons, not_or]
      constructor
      · intro hh
        subst hh
        exact hc hk
      · exact ih'.2 k (List.mem_cons_of_mem _ hk)

theorem dedupKeys_keys_nodup (l : List (String × Json)) :
    ((dedupKeys l).map Prod.fst).Nodup :=
  (dedupKeysAux_keys_spec [] l).1

theorem dictGet_of_mem_dedupKeys {l : List (String × Json)} {k : String} {v : Json}
    (h : (k, v) ∈ dedupKeys l) : dictGet l k = some v := by
  rw [← dictGet_dedupKeys]
  exact dictGet_of_keysNodup_mem (dedupKeys_keys_nodup l) h

/-! ### Python `==` on JSON values

Python compares parsed JSON dicts by key set (insertion order is ignored)
and lists element-wise in order.  `pyEq` models this; on dicts without
duplicate keys — the only dicts Python produces — the `dedupKeys`
canonicalization is the identity. -/

mutual

def pyEq : Json → Json → Bool
  | .null, .null => true
  | .bool a, .bool b => a == b
  | .num a, .num b => a == b
  | .str a, .str b => a == b
  | .arr xs, .arr ys => pyEqList xs ys
  | .obj a, .obj b =>
    (dedupKeys a).length == (dedupKeys b).length
      && pyEqObjGo (dedupKeys a) (dedupKeys b)
  | _, _ => false
termination_by v _ => sizeOf v
decreasing_by
  · simp only [Json.arr.sizeOf_spec]
    omega
  · have h := sizeOf_dedupKeysAux_le [] a
    simp only [dedupKeys, Json.obj.sizeOf_spec]
    omega

def pyEqList : List Json → List Json → Bool
  | [], [] => true
  | x :: xs, y :: ys => pyEq x y && pyEqList xs ys
  | _, _ => false
termination_by l _ => sizeOf l

def pyEqObjGo : List (String × Json) → List (String × Json) → Bool
  | [], _ => true
  | (k, v) :: rest, b =>
    (match dictGet b k with
     | some w => pyEq v w
     | none => false) && pyEqObjGo rest b
termination_by l _ => sizeOf l

end

theorem pyEq_str_def (a b : String) : pyEq (.str a) (.str b) = (a == b) := by
  simp [pyEq]

theorem pyEq_arr_def (xs ys : List Json) : pyEq (.arr xs) (.arr ys) = pyEqList xs ys := by
  simp [pyEq]

theorem pyEq_obj_def (a b : List (String × Json)) :
    pyEq (.obj a) (.obj b) =
      ((dedupKeys a).length == (dedupKeys b).length
        && pyEqObjGo (dedupKeys a) (dedupKeys b)) := by
  simp [pyEq]

theorem pyEqList_cons_def (x y : Json) (xs ys : List Json) :
    pyEqList (x :: xs) (y :: ys) = (pyEq x y && pyEqList xs ys) := by
  simp [pyEqList]

theorem pyEqObjGo_cons_def (k : String) (v : Json) (rest b : List (String × Json)) :
    pyEqObjGo ((k, v) :: rest) b =
      ((match dictGet b k with
        | some w => pyEq v w
        | none => false) && pyEqObjGo rest b) := by
  simp [pyEqObjGo]

theorem pyEqObjGo_of (l b : List (String × Json))
    (h : ∀ k v, (k, v) ∈ l → ∃ w, dictGet b k = some w ∧ pyEq v w = true) :
    pyEqObjGo l b = true := by
  induction l with
  | nil => simp [pyEqObjGo]
  | cons kv rest ih =>
    obtain ⟨k, v⟩ := kv
    obtain ⟨w, hw, hpy⟩ := h k v (List.mem_cons_self _ _)
    rw [pyEqObjGo_cons_def, hw]
    simp only [hpy, Bool.true_and]
    exact ih fun k' v' hkv' => h k' v' (List.mem_cons_of_mem _ hkv')

theorem pyEqList_refl_of (xs : List Json) (h : ∀ x ∈ xs, pyEq x x = true) :
    pyEqList xs xs = true := by
  induction xs with
  | nil => simp [pyEqList]
  | cons x xs ih =>
    rw [pyEqList_cons_def, h x (List.mem_cons_self _ _), Bool.true_and]
    exact ih fun x' hx' => h x' (List.mem_cons_of_mem _ hx')

theorem pyEq_refl_of_sizeOf : ∀ (n : Nat) (v : Json), sizeOf v ≤ n → pyEq v v = true := by
  intro n
  induction n using Nat.strong_induction_on with
  | _ n IH =>
    intro v hv
    cases v with
    | null => simp [pyEq]
    | bool b => simp [pyEq]
    | num m => simp [pyEq]
    | str s => simp [pyEq]
    | arr xs =>
      rw [pyEq_arr_def]
      apply pyEqList_refl_of
      intro x hm
      have hsz : sizeOf x < sizeOf (Json.arr xs) := by
        have := List.sizeOf_lt_of_mem hm
        simp only [Json.arr.sizeOf_spec]
        omega
      exact IH (sizeOf x) (by omega) x le_rfl
    | obj a =>
      rw [pyEq_obj_def]
      rw [Bool.and_eq_true]
      refine ⟨by simp, ?_⟩
      apply pyEqObjGo_of
      intro k v hkv
      refine ⟨v, dictGet_of_keysNodup_mem (dedupKeys_keys_nodup a) hkv, ?_⟩
      have hmem : (k, v) ∈ a := mem_of_mem_dedupKeysAux hkv
      have hsz : sizeOf v < sizeOf (Json.obj a) := by
        have h1 := List.sizeOf_lt_of_mem hmem
        simp only [Prod.mk.sizeOf_spec] at h1
        simp only [Json.obj.sizeOf_spec]
        omega
      exact IH (sizeOf v) (by omega) v le_rfl

theorem pyEq_refl (v : Json) : pyEq v v = true :=
  pyEq_refl_of_sizeOf (sizeOf v) v le_rfl

/-- Pointwise relation between optional lookup results. -/
def optPyEq : Option Json → Option Json → Prop
  | some x, some y => pyEq x y = true
  | none, none => True
  | _, _ => False

/-- Extensionality for `pyEq` on objects: if the two association lists give
`pyEq`-equal lookup results at every key, the objects are Python-equal. -/
theorem pyEq_obj_of_lookup (a b : List (String × Json))
    (h : ∀ k, optPyEq (dictGet a k) (dictGet b k)) :
    pyEq (.obj a) (.obj b) = true := by
  rw [pyEq_obj_def, Bool.and_eq_true]
  constructor
  · have hperm : List.Perm ((dedupKeys a).map Prod.fst) ((dedupKeys b).map Prod.fst) := by
      apply List.perm_of_nodup_nodup_toFinset_eq (dedupKeys_keys_nodup a)
        (dedupKeys_keys_nodup b)
      ext k
      simp only [List.mem_toFinset, mem_keys_iff_isSome, dictGet_dedupKeys]
      have hk := h k
      cases ha : dictGet a k with
      | none =>
        cases hb : dictGet b k with
        | none => simp
        | some w => rw [ha, hb] at hk; exact absurd hk (by simp [optPyEq])
      | some v =>
        cases hb : dictGet b k with
        | none => rw [ha, hb] at hk; exact absurd hk (by simp [optPyEq])
        | some w => simp
    have := hperm.length_eq
    simpa using this
  · apply pyEqObjGo_of
    intro k v hkv
    have hga : dictGet a k = some v := dictGet_of_mem_dedupKeys hkv
    have hk := h k
    rw [hga] at hk
    cases hb : dictGet b k with
    | none => rw [hb] at hk; exact absurd hk (by simp [optPyEq])
    | some w =>
      rw [hb] at hk
      exact ⟨w, by rw [dictGet_dedupKeys, hb], hk⟩

/-! ### Shape of normalized output -/

/-- A normalized section: a record carrying a `section_id` key. -/
def SecNormalized (s : Json) : Prop :=
  ∃ kvs, s = Json.obj kvs ∧ hasKey kvs "section_id" = true

/-- A normalized part: a record with a truthy `part_name` and a `sections`
key holding a list of normalized sections. -/
def PartNormalized (p : Json) : Prop :=
  ∃ kvs, p = Json.obj kvs ∧ truthy (pyGet kvs "part_name") = true ∧
    ∃ secs, dictGet kvs "sections" = some (Json.arr secs) ∧ ∀ s ∈ secs, SecNormalized s

theorem sectionsFromList_shape (idx : Nat) (xs : List Json) :
    ∀ s ∈ sectionsFromList idx xs, SecNormalized s := by
  induction xs generalizing idx with
  | nil => simp [sectionsFromList]
  | cons x rest ih =>
    intro s hs
    match x with
    | .null | .bool _ | .num _ | .str _ | .arr _ =>
      exact ih (idx + 1) s hs
    | .obj kvs =>
      simp only [sectionsFromList] at hs
      rcases List.mem_cons.mp hs with h | h
      · by_cases hk : hasKey kvs "section_id"
        · rw [if_pos hk] at h
          exact ⟨kvs, h, hk⟩
        · rw [if_neg hk] at h
          refine ⟨kvs ++ [("section_id", Json.str ("section_" ++ Nat.repr idx))], h, ?_⟩
          have hnone : dictGet kvs "section_id" = none := by
            simp only [hasKey, Bool.not_eq_true, Option.not_isSome,
              Option.isNone_iff_eq_none] at hk
            exact hk
          simp [hasKey, dictGet_append_right _ hnone, dictGet]
      · exact ih (idx + 1) s h

theorem sectionsFromDict_shape (kvs : List (String × Json)) :
    ∀ s ∈ sectionsFromDict kvs, SecNormalized s := by
  induction kvs with
  | nil => simp [sectionsFromDict]
  | cons kv rest ih =>
    intro s hs
    obtain ⟨key, value⟩ := kv
    simp only [sectionsFromDict] at hs
    rcases List.mem_cons.mp hs with h | h
    · match value with
      | .obj fields =>
        refine ⟨dictSet fields "section_id" (Json.str key), h, ?_⟩
        simp [hasKey, dictGet_dictSet_self]
      | .null | .bool _ | .num _ | .str _ | .arr _ =>
        refine ⟨[("section_id", Json.str key), ("value", _)], h, ?_⟩
        simp [hasKey, dictGet]
    · exact ih s h

theorem transform_sections_shape (x : Json) :
    ∀ s ∈ transform_sections x, SecNormalized s := by
  match x with
  | .arr xs => exact sectionsFromList_shape 0 xs
  | .obj kvs => exact sectionsFromDict_shape kvs
  | .null | .bool _ | .num _ | .str _ => simp [transform_sections]

/-- On an already-normalized list of sections, the list branch of
`transform_sections` is the identity: every element is a record that
already has a `section_id`. -/
theorem sectionsFromList_fixed (secs : List Json) (h : ∀ s ∈ secs, SecNormalized s) :
    ∀ idx, sectionsFromList idx secs = secs := by
  induction secs with
  | nil => intro idx; rfl
  | cons s rest ih =>
    intro idx
    obtain ⟨kvs, hs, hk⟩ := h s (List.mem_cons_self _ _)
    subst hs
    simp only [sectionsFromList, if_pos hk]
    rw [ih (fun s' hs' => h s' (List.mem_cons_of_mem _ hs')) (idx + 1)]

theorem transform_sections_fixed (secs : List Json) (h : ∀ s ∈ secs, SecNormalized s) :
    transform_sections (.arr secs) = secs :=
  sectionsFromList_fixed secs h 0

/-! ### `pyEq` congruence helpers -/

theorem truthy_pyGet_elim {kvs : List (String × Json)} {k : String}
    (h : truthy (pyGet kvs k) = true) :
    ∃ v, dictGet kvs k = some v ∧ truthy v = true := by
  cases hd : dictGet kvs k with
  | none =>
    rw [pyGet, hd] at h
    simp [truthy] at h
  | some v =>
    rw [pyGet, hd] at h
    exact ⟨v, rfl, h⟩

/-- Removing the first binding of key `s` and re-appending it at the end is
invisible to Python equality. -/
theorem pyEq_filter_append (kvs : List (String × Json)) (s : String) (v : Json)
    (h : dictGet kvs s = some v) :
    pyEq (.obj ((kvs.filter fun kv => kv.1 != s) ++ [(s, v)])) (.obj kvs) = true := by
  apply pyEq_obj_of_lookup
  intro k
  by_cases hk : k = s
  · subst hk
    rw [dictGet_append_right _ (dictGet_filter_self kvs k), h]
    simp only [dictGet, if_pos rfl]
    simp [optPyEq, pyEq_refl]
  · cases hd : dictGet kvs k with
    | some w =>
      rw [dictGet_append_left _ (by rw [dictGet_filter_ne kvs hk]; exact hd)]
      simp [optPyEq, pyEq_refl]
    | none =>
      rw [dictGet_append_right _ (by rw [dictGet_filter_ne kvs hk]; exact hd)]
      have hs : s ≠ k := Ne.symm hk
      simp [dictGet, hs, optPyEq]

/-- Replacing the value appended at the end of an object by a `pyEq`-equal
value preserves Python equality. -/
theorem pyEq_append_single (F : List (String × Json)) (k : String) {x y : Json}
    (h : pyEq x y = true) :
    pyEq (.obj (F ++ [(k, x)])) (.obj (F ++ [(k, y)])) = true := by
  apply pyEq_obj_of_lookup
  intro k'
  cases hd : dictGet F k' with
  | some w =>
    rw [dictGet_append_left _ hd, dictGet_append_left _ hd]
    simp [optPyEq, pyEq_refl]
  | none =>
    rw [dictGet_append_right _ hd, dictGet_append_right _ hd]
    by_cases hk : k = k'
    · subst hk
      simp [dictGet, optPyEq, h]
    · simp [dictGet, hk, optPyEq]

/-! ### Normalized parts

The one way `transform_parts` can emit a part without a truthy `part_name`
is the mapping branch with an empty-string key whose value lacks a truthy
`part_name` field: `value.get("part_name") or key` is then falsy.  `partsOK`
rules exactly that out. -/

/-- Every entry of a `parts` mapping either has a non-empty key or a record
value with a truthy `part_name` field.  Non-mapping `parts` values are
unconstrained. -/
def partsOK : Json → Bool
  | .obj kvs =>
    kvs.all fun kv =>
      kv.1 != "" ||
        (match kv.2 with
         | .obj fields => truthy (pyGet fields "part_name")
         | _ => false)
  | _ => true

theorem partFromListElem_normalized {kvs : List (String × Json)} {p : Json}
    (h : partFromListElem (.obj kvs) = some p) : PartNormalized p := by
  simp only [partFromListElem, Option.some.injEq] at h
  subst h
  by_cases ht : truthy (pyGet ((kvs.filter fun kv => kv.1 != "sections")
      ++ [("sections", Json.arr (transform_sections (pyGet kvs "sections")))]) "part_name") = true
  · rw [if_pos ht]
    refine ⟨_, rfl, ht, transform_sections (pyGet kvs "sections"), ?_, ?_⟩
    · rw [dictGet_append_right _ (dictGet_filter_self kvs "sections")]
      simp [dictGet]
    · exact transform_sections_shape _
  · rw [if_neg ht]
    refine ⟨_, rfl, ?_, transform_sections (pyGet kvs "sections"), ?_, ?_⟩
    · rw [pyGet_eq_of_dictGet (dictGet_dictSet_self _ "part_name" _)]
      by_cases hpn : truthy (pyGet kvs "part_name") = true
      · rw [if_pos hpn]
        exact hpn
      · rw [if_neg hpn]
        rfl
    · rw [dictGet_dictSet_ne _ _ (by decide)]
      rw [dictGet_append_right _ (dictGet_filter_self kvs "sections")]
      simp [dictGet]
    · exact transform_sections_shape _

theorem partFromDictEntry_normalized_obj (key : String) (fields : List (String × Json))
    (hok : key ≠ "" ∨ truthy (pyGet fields "part_name") = true) :
    PartNormalized (partFromDictEntry (key, .obj fields)) := by
  simp only [partFromDictEntry]
  refine ⟨_, rfl, ?_, transform_sections (pyGet fields "sections"), ?_, ?_⟩
  · rw [pyGet_eq_of_dictGet (dictGet_append_left _ (dictGet_dictSet_self _ "part_name" _))]
    by_cases htf : truthy (pyGet fields "part_name") = true
    · rw [if_pos htf]
      exact htf
    · rw [if_neg htf]
      have hkey : key ≠ "" := by
        rcases hok with h | h
        · exact h
        · exact absurd h htf
      simpa [truthy] using hkey
  · have h1 : dictGet (dictSet (fields.filter fun kv => kv.1 != "sections")
        "part_name" (if truthy (pyGet fields "part_name") = true then pyGet fields "part_name"
          else Json.str key)) "sections" = none := by
      rw [dictGet_dictSet_ne _ _ (by decide)]
      exact dictGet_filter_self fields "sections"
    rw [dictGet_append_right _ h1]
    simp [dictGet]
  · exact transform_sections_shape _

theorem partFromDictEntry_normalized_other (key : String) (v : Json)
    (hv : isObj v = false) (hkey : key ≠ "") :
    PartNormalized (partFromDictEntry (key, v)) := by
  have hform : partFromDictEntry (key, v) =
      Json.obj [("part_name", Json.str key), ("value", v), ("sections", Json.arr [])] := by
    match v with
    | .null | .bool _ | .num _ | .str _ | .arr _ => rfl
    | .obj _ => simp [isObj] at hv
  rw [hform]
  refine ⟨_, rfl, ?_, [], ?_, by simp⟩
  · have : pyGet [("part_name", Json.str key), ("value", v), ("sections", Json.arr [])]
        "part_name" = Json.str key := by
      simp [pyGet, dictGet]
    rw [this]
    simpa [truthy] using hkey
  · simp [dictGet]

theorem transform_parts_shape (x : Json) (hok : partsOK x = true) :
    ∀ p ∈ transform_parts x, PartNormalized p := by
  match x with
  | .null | .bool _ | .num _ | .str _ => simp [transform_parts]
  | .arr xs =>
    intro p hp
    simp only [transform_parts] at hp
    obtain ⟨a, ha, hsome⟩ := List.mem_filterMap.mp hp
    match a with
    | .obj kvs => exact partFromListElem_normalized hsome
    | .null | .bool _ | .num _ | .str _ | .arr _ => simp [partFromListElem] at hsome
  | .obj kvs =>
    intro p hp
    simp only [transform_parts] at hp
    obtain ⟨⟨key, value⟩, hmem, hp'⟩ := List.mem_map.mp hp
    simp only [partsOK] at hok
    have hentry := List.all_eq_true.mp hok _ hmem
    rw [← hp']
    match value with
    | .obj fields =>
      apply partFromDictEntry_normalized_obj
      have h' : key ≠ "" ∨ truthy (pyGet fields "part_name") = true := by
        simpa using hentry
      exact h'
    | .null | .bool _ | .num _ | .str _ | .arr _ =>
      refine partFromDictEntry_normalized_other key _ rfl ?_
      simpa using hentry

/-- A normalized part passes through the list branch of `transform_parts`
unchanged up to Python equality (only the position of the `sections` key can
move, since it is re-appended at the end). -/
theorem partFromListElem_pyEq {p : Json} (hp : PartNormalized p) :
    ∃ p', partFromListElem p = some p' ∧ pyEq p' p = true := by
  obtain ⟨kvs, rfl, ht, secs, hsec, hshape⟩ := hp
  have hget : pyGet kvs "sections" = Json.arr secs := pyGet_eq_of_dictGet hsec
  have hS : transform_sections (pyGet kvs "sections") = secs := by
    rw [hget]
    exact transform_sections_fixed secs hshape
  obtain ⟨v, hv, htv⟩ := truthy_pyGet_elim ht
  have hbase : dictGet ((kvs.filter fun kv => kv.1 != "sections")
      ++ [("sections", Json.arr (transform_sections (pyGet kvs "sections")))]) "part_name"
      = some v := by
    apply dictGet_append_left
    rw [dictGet_filter_ne kvs (by decide)]
    exact hv
  have hcond : truthy (pyGet ((kvs.filter fun kv => kv.1 != "sections")
      ++ [("sections", Json.arr (transform_sections (pyGet kvs "sections")))]) "part_name")
      = true := by
    rw [pyGet_eq_of_dictGet hbase]
    exact htv
  refine ⟨Json.obj ((kvs.filter fun kv => kv.1 != "sections")
      ++ [("sections", Json.arr (transform_sections (pyGet kvs "sections")))]), ?_, ?_⟩
  · simp only [partFromListElem, Option.some.injEq]
    rw [if_pos hcond]
  · rw [hS]
    exact pyEq_filter_append kvs "sections" (Json.arr secs) hsec

/-- Re-normalizing an already-normalized parts list is the identity up to
Python equality, element by element. -/
theorem transform_parts_fixed_pyEq (P : List Json) (h : ∀ p ∈ P, PartNormalized p) :
    pyEqList (transform_parts (.arr P)) P = true := by
  induction P with
  | nil => simp [transform_parts, pyEqList]
  | cons p rest ih =>
    obtain ⟨p', hsome, hpe⟩ := partFromListElem_pyEq (h p (List.mem_cons_self _ _))
    have hrest := ih fun q hq => h q (List.mem_cons_of_mem _ hq)
    simp only [transform_parts, List.filterMap_cons, hsome]
    rw [pyEqList_cons_def, hpe, Bool.true_and]
    simpa [transform_parts] using hrest

theorem pyEqList_nil_def : pyEqList [] [] = true := by
  simp [pyEqList]

theorem pyEqObjGo_nil_def (b : List (String × Json)) : pyEqObjGo [] b = true := by
  simp [pyEqObjGo]

/-! ### Claim C1: idempotence of `transform_document` -/

/-- C1 (counterexample): `transform_document` is *not* idempotent on every
mapping document.  For `d = {"parts": {"": {}}}` the first pass emits a part
with `part_name` `""` (the mapping key), and the second pass — whose list
branch tests `part_name` for truthiness, not presence — replaces that falsy
name with `"Part"`.  The two results differ under Python equality, and the
explicit values show `part_name` changing from `""` to `"Part"`. -/
theorem C1_counterexample_idempotence_fails :
    transform_document [("parts", Json.obj [("", Json.obj [])])]
      = [("parts", Json.arr [Json.obj [("part_name", Json.str ""), ("sections", Json.arr [])]])]
    ∧ transform_document (transform_document [("parts", Json.obj [("", Json.obj [])])])
      = [("parts", Json.arr [Json.obj [("part_name", Json.str "Part"), ("sections", Json.arr [])]])]
    ∧ pyEq
        (.obj (transform_document (transform_document [("parts", Json.obj [("", Json.obj [])])])))
        (.obj (transform_document [("parts", Json.obj [("", Json.obj [])])])) = false := by
  refine ⟨rfl, rfl, ?_⟩
  simp [pyEq_obj_def, pyEq_arr_def, pyEq_str_def, pyEqList_cons_def, pyEqList_nil_def,
    pyEqObjGo_cons_def, pyEqObjGo_nil_def, dedupKeys, dedupKeysAux, dictGet,
    transform_document, transform_parts, transform_sections, partFromListElem,
    partFromDictEntry, sectionsFromList, pyGet, dictSet, truthy]

/-- C1 (amended): `transform_document` is idempotent up to Python equality
for every document in which no entry of a `parts` mapping combines an
empty-string key with a value lacking a truthy `part_name` — the exact
situation of the counterexample.  (Python `==` ignores dict insertion order,
which the second pass can change by re-appending `sections` before a
defaulted `part_name` instead of after it.) -/
theorem C1_transform_document_idempotent (doc : List (String × Json))
    (h : partsOK (pyGet doc "parts") = true) :
    pyEq (.obj (transform_document (transform_document doc)))
      (.obj (transform_document doc)) = true := by
  have hF : ((doc.filter fun kv => kv.1 != "parts")
      ++ [("parts", Json.arr (transform_parts (pyGet doc "parts")))]).filter
        (fun kv => kv.1 != "parts")
      = doc.filter fun kv => kv.1 != "parts" := by
    rw [List.filter_append]
    have h1 : (doc.filter fun kv => kv.1 != "parts").filter (fun kv => kv.1 != "parts")
        = doc.filter fun kv => kv.1 != "parts" :=
      List.filter_eq_self.mpr fun a ha => (List.mem_filter.mp ha).2
    rw [h1]
    simp
  have hpy1 : pyGet ((doc.filter fun kv => kv.1 != "parts")
      ++ [("parts", Json.arr (transform_parts (pyGet doc "parts")))]) "parts"
      = Json.arr (transform_parts (pyGet doc "parts")) := by
    apply pyGet_eq_of_dictGet
    rw [dictGet_append_right _ (dictGet_filter_self doc "parts")]
    simp [dictGet]
  have ht2 : transform_document (transform_document doc)
      = (doc.filter fun kv => kv.1 != "parts")
        ++ [("parts", Json.arr (transform_parts
            (.arr (transform_parts (pyGet doc "parts")))))] := by
    show ((transform_document doc).filter fun kv => kv.1 != "parts")
        ++ [("parts", Json.arr (transform_parts (pyGet (transform_document doc) "parts")))] = _
    rw [show transform_document doc = (doc.filter fun kv => kv.1 != "parts")
        ++ [("parts", Json.arr (transform_parts (pyGet doc "parts")))] from rfl]
    rw [hF, hpy1]
  rw [ht2]
  rw [show transform_document doc = (doc.filter fun kv => kv.1 != "parts")
      ++ [("parts", Json.arr (transform_parts (pyGet doc "parts")))] from rfl]
  apply pyEq_append_single
  rw [pyEq_arr_def]
  exact transform_parts_fixed_pyEq _ (transform_parts_shape _ h)

/-- C1 (witness): the amended idempotence theorem applied to the concrete
document `{"company_name": "Acme", "parts": {"Part_1": {"sections":
{"business": {"content": "We make widgets."}}}}}`. -/
theorem C1_transform_document_idempotent_witness :
    partsOK (pyGet [("company_name", Json.str "Acme"),
        ("parts", Json.obj [("Part_1", Json.obj [("sections",
          Json.obj [("business", Json.obj [("content", Json.str "We make widgets.")])])])])]
        "parts") = true
    ∧ pyEq (.obj (transform_document (transform_document [("company_name", Json.str "Acme"),
        ("parts", Json.obj [("Part_1", Json.obj [("sections",
          Json.obj [("business", Json.obj [("content", Json.str "We make widgets.")])])])])])))
        (.obj (transform_document [("company_name", Json.str "Acme"),
        ("parts", Json.obj [("Part_1", Json.obj [("sections",
          Json.obj [("business", Json.obj [("content", Json.str "We make widgets.")])])])])]))
      = true :=
  ⟨rfl, C1_transform_document_idempotent _ rfl⟩

/-! ### Injectivity of `Nat.repr`

Needed for distinctness of the derived `section_{idx}` identifiers.  Core
defines `Nat.repr n = (Nat.toDigitsCore 10 (n+1) n []).asString`; we relate
the fuelled loop to a fuel-free digit spec and invert it with a decoder. -/

/-- Decimal digits of `n`, most significant first (agrees with
`Nat.toDigits 10`). -/
def digitsSpec (n : Nat) : List Char :=
  if n < 10 then [Nat.digitChar n]
  else digitsSpec (n / 10) ++ [Nat.digitChar (n % 10)]
termination_by n
decreasing_by
  exact Nat.div_lt_self (by omega) (by omega)

theorem digitsSpec_of_lt {n : Nat} (h : n < 10) : digitsSpec n = [Nat.digitChar n] := by
  rw [digitsSpec]
  simp [h]

theorem digitsSpec_of_ge {n : Nat} (h : ¬ n < 10) :
    digitsSpec n = digitsSpec (n / 10) ++ [Nat.digitChar (n % 10)] := by
  rw [digitsSpec]
  simp [h]

theorem toDigitsCore_eq_digitsSpec (fuel : Nat) : ∀ (n : Nat) (acc : List Char),
    n ≤ fuel → Nat.toDigitsCore 10 (fuel + 1) n acc = digitsSpec n ++ acc := by
  induction fuel with
  | zero =>
    intro n acc hn
    have hz : n = 0 := Nat.le_zero.mp hn
    subst hz
    simp [Nat.toDigitsCore, digitsSpec_of_lt (show (0 : Nat) < 10 by omega)]
  | succ fuel ih =>
    intro n acc hn
    by_cases h10 : n < 10
    · have hz : n / 10 = 0 := Nat.div_eq_of_lt h10
      simp [Nat.toDigitsCore, hz, digitsSpec_of_lt h10, Nat.mod_eq_of_lt h10]
    · have hz : ¬ n / 10 = 0 := by
        intro hzz
        have h1 : n < 10 := by
          rcases Nat.lt_or_ge n 10 with h | h
          · exact h
          · have := Nat.one_le_div_iff (by omega : 0 < 10) |>.mpr h
            omega
        exact h10 h1
      have hle : n / 10 ≤ fuel := by
        have h1 : n / 10 < n := Nat.div_lt_self (by omega) (by omega)
        omega
      rw [show Nat.toDigitsCore 10 (fuel + 1 + 1) n acc
          = if n / 10 = 0 then (n % 10).digitChar :: acc
            else Nat.toDigitsCore 10 (fuel + 1) (n / 10) ((n % 10).digitChar :: acc) from rfl]
      rw [if_neg hz, ih (n / 10) _ hle, digitsSpec_of_ge h10, List.append_assoc]
      rfl

theorem toDigits_eq_digitsSpec (n : Nat) : Nat.toDigits 10 n = digitsSpec n := by
  show Nat.toDigitsCore 10 (n + 1) n [] = _
  rw [toDigitsCore_eq_digitsSpec n n [] Nat.le.refl, List.append_nil]

/-- Value of a decimal digit character. -/
def digitVal (c : Char) : Nat :=
  if c = '0' then 0 else if c = '1' then 1 else if c = '2' then 2 else
  if c = '3' then 3 else if c = '4' then 4 else if c = '5' then 5 else
  if c = '6' then 6 else if c = '7' then 7 else if c = '8' then 8 else
  if c = '9' then 9 else 0

theorem digitVal_digitChar {d : Nat} (h : d < 10) :
    digitVal (Nat.digitChar d) = d := by
  interval_cases d <;> rfl

/-- Decode a most-significant-first decimal digit list. -/
def decodeDigits (l : List Char) : Nat :=
  l.foldl (fun a c => 10 * a + digitVal c) 0

theorem decodeDigits_append_single (l : List Char) (c : Char) :
    decodeDigits (l ++ [c]) = 10 * decodeDigits l + digitVal c := by
  simp [decodeDigits, List.foldl_append]

theorem decode_digitsSpec (n : Nat) : decodeDigits (digitsSpec n) = n := by
  induction n using Nat.strong_induction_on with
  | _ n ih =>
    by_cases h : n < 10
    · rw [digitsSpec_of_lt h]
      simp [decodeDigits, digitVal_digitChar h]
    · have hlt : n / 10 < n := Nat.div_lt_self (by omega) (by omega)
      rw [digitsSpec_of_ge h, decodeDigits_append_single, ih _ hlt,
        digitVal_digitChar (Nat.mod_lt _ (by omega))]
      omega

theorem natRepr_injective {m n : Nat} (h : Nat.repr m = Nat.repr n) : m = n := by
  have hd : Nat.toDigits 10 m = Nat.toDigits 10 n := by
    have h2 := congrArg String.data h
    simpa [Nat.repr, List.asString] using h2
  rw [toDigits_eq_digitsSpec, toDigits_eq_digitsSpec] at hd
  have h3 := congrArg decodeDigits hd
  rwa [decode_digitsSpec, decode_digitsSpec] at h3

theorem sectionIdString_injective {i j : Nat}
    (h : "section_" ++ Nat.repr i = "section_" ++ Nat.repr j) : i = j := by
  have hd := congrArg String.data h
  rw [String.data_append, String.data_append] at hd
  have h2 := List.append_cancel_left hd
  exact natRepr_injective (String.ext h2)

/-! ### Claim C2: uniqueness of `section_id` within a part -/

/-- The `section_id` values carried by a list of sections, in order
(`none` for a section without the key or a non-record section). -/
def sectionIds (secs : List Json) : List (Option Json) :=
  secs.map fun s =>
    match s with
    | .obj kvs => dictGet kvs "section_id"
    | _ => none

/-- Does this value carry a `section_id` key (records only)? -/
def hasSectionId : Json → Bool
  | .obj kvs => hasKey kvs "section_id"
  | _ => false

theorem sectionIds_sectionsFromDict (kvs : List (String × Json)) :
    sectionIds (sectionsFromDict kvs) = kvs.map fun kv => some (Json.str kv.1) := by
  induction kvs with
  | nil => rfl
  | cons kv rest ih =>
    obtain ⟨key, value⟩ := kv
    match value with
    | .obj fields =>
      simp only [sectionsFromDict, sectionIds, List.map_cons]
      rw [dictGet_dictSet_self]
      simp only [sectionIds] at ih
      rw [ih]
    | .null | .bool _ | .num _ | .str _ | .arr _ =>
      simp only [sectionsFromDict, sectionIds, List.map_cons]
      simp only [sectionIds] at ih
      rw [ih]
      simp [dictGet]

theorem sectionIds_sectionsFromList_sublist (xs : List Json)
    (h : ∀ x ∈ xs, hasSectionId x = false) : ∀ idx,
    (sectionIds (sectionsFromList idx xs)).Sublist
      ((List.range' idx xs.length).map fun i =>
        some (Json.str ("section_" ++ Nat.repr i))) := by
  induction xs with
  | nil => simp [sectionsFromList, sectionIds]
  | cons x rest ih =>
    intro idx
    have hrest := ih (fun y hy => h y (List.mem_cons_of_mem _ hy)) (idx + 1)
    rw [List.length_cons, List.range'_succ, List.map_cons]
    match x with
    | .obj kvs =>
      have hx : hasKey kvs "section_id" = false := by
        simpa [hasSectionId] using h _ (List.mem_cons_self _ _)
      have hnone : dictGet kvs "section_id" = none := by
        simpa [hasKey, Option.isNone_iff_eq_none] using hx
      have hhead : sectionsFromList idx (Json.obj kvs :: rest)
          = Json.obj (kvs ++ [("section_id", Json.str ("section_" ++ Nat.repr idx))])
            :: sectionsFromList (idx + 1) rest := by
        simp only [sectionsFromList]
        rw [if_neg (by rw [hx]; exact Bool.false_ne_true)]
      rw [hhead]
      simp only [sectionIds, List.map_cons]
      rw [dictGet_append_right _ hnone]
      rw [show dictGet [("section_id", Json.str ("section_" ++ Nat.repr idx))] "section_id"
          = some (Json.str ("section_" ++ Nat.repr idx)) from rfl]
      simp only [sectionIds] at hrest
      exact List.Sublist.cons₂ _ hrest
    | .null | .bool _ | .num _ | .str _ | .arr _ =>
      simp only [sectionsFromList, sectionIds] at hrest ⊢
      exact List.Sublist.cons _ hrest

/-- C2 (counterexample): normalization can produce a part whose sections
carry duplicate `section_id`s.  In
`{"parts": [{"sections": [{"section_id": "section_1"}, {}]}]}` the second
section (a record without an id, at position 1) receives the derived id
`"section_1"`, which collides with the id the first section already
carries. -/
theorem C2_counterexample_duplicate_section_ids :
    transform_document [("parts", Json.arr [Json.obj [("sections", Json.arr
        [Json.obj [("section_id", Json.str "section_1")], Json.obj []])]])]
      = [("parts", Json.arr [Json.obj [("sections", Json.arr
          [Json.obj [("section_id", Json.str "section_1")],
           Json.obj [("section_id", Json.str "section_1")]]),
          ("part_name", Json.str "Part")]])]
    ∧ ¬ (sectionIds [Json.obj [("section_id", Json.str "section_1")],
          Json.obj [("section_id", Json.str "section_1")]]).Nodup := by
  refine ⟨rfl, ?_⟩
  intro h
  have h2 : sectionIds [Json.obj [("section_id", Json.str "section_1")],
      Json.obj [("section_id", Json.str "section_1")]]
      = [some (Json.str "section_1"), some (Json.str "section_1")] := rfl
  rw [h2] at h
  exact (List.nodup_cons.mp h).1 (List.mem_singleton.mpr rfl)

/-- C2 (amended): the `section_id`s of a normalized sections sequence are
pairwise distinct when the sections come from a mapping (the ids are the
mapping's keys, unique in a Python dict), and also when they come from a
list none of whose records already carries a `section_id` (the derived
`section_{index}` ids use pairwise-distinct positions).  A derived id can
however collide with an id already present in the source, as the
counterexample shows. -/
theorem C2_section_ids_unique_amended :
    (∀ kvs : List (String × Json), (kvs.map Prod.fst).Nodup →
      (sectionIds (transform_sections (.obj kvs))).Nodup)
    ∧ ∀ xs : List Json, (∀ x ∈ xs, hasSectionId x = false) →
      (sectionIds (transform_sections (.arr xs))).Nodup := by
  constructor
  · intro kvs h
    rw [show transform_sections (.obj kvs) = sectionsFromDict kvs from rfl,
      sectionIds_sectionsFromDict]
    have h2 : (kvs.map fun kv => some (Json.str kv.1))
        = (kvs.map Prod.fst).map fun k => some (Json.str k) := by
      rw [List.map_map]
      rfl
    rw [h2]
    refine h.map ?_
    intro a b hab
    have := Json.str.inj (Option.some.inj hab)
    exact this
  · intro xs h
    refine List.Sublist.nodup (sectionIds_sectionsFromList_sublist xs h 0) ?_
    refine (List.nodup_range' 0 xs.length).map ?_
    intro a b hab
    exact sectionIdString_injective (Json.str.inj (Option.some.inj hab))

/-- C2 (witness): the amended uniqueness theorem applied to the mapping
`{"a": {}, "b": null}` and to the list `[{}, 3, {"x": 1}]`. -/
theorem C2_section_ids_unique_amended_witness :
    (([("a", Json.obj []), ("b", Json.null)].map
        (Prod.fst (β := Json))).Nodup
      ∧ (sectionIds (transform_sections
          (.obj [("a", Json.obj []), ("b", Json.null)]))).Nodup)
    ∧ (∀ x ∈ [Json.obj [], Json.num 3, Json.obj [("x", Json.num 1)]],
        hasSectionId x = false)
      ∧ (sectionIds (transform_sections
          (.arr [Json.obj [], Json.num 3, Json.obj [("x", Json.num 1)]]))).Nodup :=
  ⟨⟨by decide, C2_section_ids_unique_amended.1 _ (by decide)⟩,
   by decide, C2_section_ids_unique_amended.2 _ (by decide)⟩

/-! ### Claim C3: totality over arbitrary input -/

/-- C3: `transform_sections` and `transform_parts` are total Lean functions
over every `Json` value (the embedding of the Python functions, which
raise on no input), and any input that is neither a list nor a mapping
yields the empty sequence. -/
theorem C3_non_list_non_mapping_empty (v : Json)
    (ha : isArr v = false) (ho : isObj v = false) :
    transform_sections v = [] ∧ transform_parts v = [] := by
  match v with
  | .null | .bool _ | .num _ | .str _ => exact ⟨rfl, rfl⟩
  | .arr _ => simp [isArr] at ha
  | .obj _ => simp [isObj] at ho

/-- C3 (witness): the totality/empty-result theorem at `None`. -/
theorem C3_non_list_non_mapping_empty_witness :
    isArr Json.null = false ∧ isObj Json.null = false
    ∧ transform_sections Json.null = [] ∧ transform_parts Json.null = [] :=
  ⟨rfl, rfl, (C3_non_list_non_mapping_empty Json.null rfl rfl).1,
    (C3_non_list_non_mapping_empty Json.null rfl rfl).2⟩

/-! ### Claim C4: the list branch of `transform_sections` -/

theorem sectionsFromList_eq_enumFrom (xs : List Json) : ∀ idx,
    sectionsFromList idx xs
      = (xs.enumFrom idx).filterMap fun p =>
          match p.2 with
          | .obj kvs => some (Json.obj (if hasKey kvs "section_id" then kvs
              else kvs ++ [("section_id", Json.str ("section_" ++ Nat.repr p.1))]))
          | _ => none := by
  induction xs with
  | nil => intro idx; rfl
  | cons x rest ih =>
    intro idx
    match x with
    | .obj kvs =>
      simp only [sectionsFromList, List.enumFrom_cons, List.filterMap_cons]
      rw [ih (idx + 1)]
      by_cases hc : hasKey kvs "section_id" = true <;> simp [hc]
    | .null | .bool _ | .num _ | .str _ | .arr _ =>
      simp only [sectionsFromList, List.enumFrom_cons, List.filterMap_cons]
      rw [ih (idx + 1)]

/-- C4: on a list input, `transform_sections` keeps exactly the record
elements, in input order, each with all its fields preserved and gaining
`section_id = "section_{positional_index}"` (appended last) only when the
key is absent; non-record elements are dropped.  The second conjunct is the
spec's concrete example. -/
theorem C4_list_branch_characterization :
    (∀ xs : List Json, transform_sections (.arr xs)
      = xs.enum.filterMap fun p =>
          match p.2 with
          | .obj kvs => some (Json.obj (if hasKey kvs "section_id" then kvs
              else kvs ++ [("section_id", Json.str ("section_" ++ Nat.repr p.1))]))
          | _ => none)
    ∧ transform_sections (.arr [Json.obj [("category", Json.str "business"),
        ("content", Json.str "...")]])
      = [Json.obj [("category", Json.str "business"), ("content", Json.str "..."),
          ("section_id", Json.str "section_0")]] := by
  refine ⟨?_, rfl⟩
  intro xs
  exact sectionsFromList_eq_enumFrom xs 0

/-! ### Claim C5: the mapping branch of `transform_sections` -/

/-- C5: on a mapping input, `transform_sections` emits one section per
`(key, value)` pair, in insertion order.  A record value is emitted with
`section_id` set to the key — overwriting any existing `section_id`, since
the lookup yields the key even then — and all other fields preserved; a
non-record value becomes the synthetic section
`{"section_id": key, "value": value}`.  The second conjunct is the spec's
concrete example. -/
theorem C5_mapping_branch_characterization :
    (∀ kvs : List (String × Json),
      List.Forall₂ (fun kv s => ∃ fields, s = Json.obj fields
          ∧ dictGet fields "section_id" = some (Json.str kv.1)
          ∧ match kv.2 with
            | Json.obj vf => ∀ k, k ≠ "section_id" → dictGet fields k = dictGet vf k
            | v => s = Json.obj [("section_id", Json.str kv.1), ("value", v)])
        kvs (transform_sections (.obj kvs)))
    ∧ transform_sections (.obj [("business", Json.obj [("content", Json.str "...")])])
      = [Json.obj [("content", Json.str "..."), ("section_id", Json.str "business")]] := by
  refine ⟨?_, rfl⟩
  intro kvs
  show List.Forall₂ _ kvs (sectionsFromDict kvs)
  induction kvs with
  | nil => exact List.Forall₂.nil
  | cons kv rest ih =>
    obtain ⟨key, value⟩ := kv
    refine List.Forall₂.cons ?_ ih
    match value with
    | .obj vf =>
      refine ⟨dictSet vf "section_id" (Json.str key), rfl,
        dictGet_dictSet_self vf "section_id" _, ?_⟩
      intro k hk
      exact dictGet_dictSet_ne vf _ hk
    | .null | .bool _ | .num _ | .str _ | .arr _ =>
      exact ⟨[("section_id", Json.str key), ("value", _)], rfl, by simp [dictGet], rfl⟩

/-! ### Claim C6: the mapping branch of `transform_parts` -/

/-- C6: on a mapping input, `transform_parts` emits one part per
`(key, value)` pair, in insertion order.  A record value yields a part whose
`part_name` is the value's `part_name` when truthy, else the key; whose
`sections` is `transform_sections` of the value's `sections` field; and
whose other fields are preserved.  A non-record value yields the
placeholder `{"part_name": key, "value": value, "sections": []}`.  The
second conjunct is the spec's concrete example. -/
theorem C6_parts_mapping_branch_characterization :
    (∀ kvs : List (String × Json),
      List.Forall₂ (fun kv p => ∃ base, p = Json.obj base
          ∧ match kv.2 with
            | Json.obj vf =>
                dictGet base "part_name"
                  = some (if truthy (pyGet vf "part_name") then pyGet vf "part_name"
                      else Json.str kv.1)
                ∧ dictGet base "sections"
                    = some (Json.arr (transform_sections (pyGet vf "sections")))
                ∧ ∀ k, k ≠ "part_name" → k ≠ "sections" → dictGet base k = dictGet vf k
            | v => p = Json.obj [("part_name", Json.str kv.1), ("value", v),
                ("sections", Json.arr [])])
        kvs (transform_parts (.obj kvs)))
    ∧ transform_parts (.obj [("Part_1", Json.str "raw text")])
      = [Json.obj [("part_name", Json.str "Part_1"), ("value", Json.str "raw text"),
          ("sections", Json.arr [])]] := by
  refine ⟨?_, rfl⟩
  intro kvs
  show List.Forall₂ _ kvs (kvs.map partFromDictEntry)
  induction kvs with
  | nil => exact List.Forall₂.nil
  | cons kv rest ih =>
    obtain ⟨key, value⟩ := kv
    rw [List.map_cons]
    refine List.Forall₂.cons ?_ ih
    match value with
    | .obj vf =>
      refine ⟨dictSet (vf.filter fun kv => kv.1 != "sections") "part_name"
          (if truthy (pyGet vf "part_name") then pyGet vf "part_name" else Json.str key)
        ++ [("sections", Json.arr (transform_sections (pyGet vf "sections")))],
        rfl, ?_, ?_, ?_⟩
      · exact dictGet_append_left _ (dictGet_dictSet_self _ "part_name" _)
      · have h1 : dictGet (dictSet (vf.filter fun kv => kv.1 != "sections")
            "part_name" (if truthy (pyGet vf "part_name") then pyGet vf "part_name"
              else Json.str key)) "sections" = none := by
          rw [dictGet_dictSet_ne _ _ (by decide)]
          exact dictGet_filter_self vf "sections"
        rw [dictGet_append_right _ h1]
        simp [dictGet]
      · intro k hpn hsec
        cases hd : dictGet vf k with
        | some w =>
          apply dictGet_append_left
          rw [dictGet_dictSet_ne _ _ hpn, dictGet_filter_ne vf hsec]
          exact hd
        | none =>
          have h3 : dictGet (dictSet (vf.filter fun kv => kv.1 != "sections")
              "part_name" (if truthy (pyGet vf "part_name") then pyGet vf "part_name"
                else Json.str key)) k = none := by
            rw [dictGet_dictSet_ne _ _ hpn, dictGet_filter_ne vf hsec]
            exact hd
          rw [dictGet_append_right _ h3]
          have h2 : "sections" ≠ k := Ne.symm hsec
          simp [dictGet, h2]
    | .null | .bool _ | .num _ | .str _ | .arr _ => exact ⟨_, rfl, rfl⟩

/-! ### Claim C7: `transform_document` passthrough and purity -/

/-- C7: `transform_document` leaves every top-level key other than `parts`
looking up to its original value, and maps `parts` to
`transform_parts` of the document's `parts` field (`pyGet` returns the
Python `None`, i.e. `null`, when the field is absent, and `transform_parts
null = []`).  The embedding is a pure function, as is the Python original,
which builds a fresh dict and never mutates its argument. -/
theorem C7_document_passthrough (doc : List (String × Json)) :
    (∀ k, k ≠ "parts" → dictGet (transform_document doc) k = dictGet doc k)
    ∧ dictGet (transform_document doc) "parts"
        = some (Json.arr (transform_parts (pyGet doc "parts"))) := by
  constructor
  · intro k hk
    show dictGet ((doc.filter fun kv => kv.1 != "parts")
        ++ [("parts", Json.arr (transform_parts (pyGet doc "parts")))]) k = dictGet doc k
    cases hd : dictGet doc k with
    | some w =>
      apply dictGet_append_left
      rw [dictGet_filter_ne doc hk]
      exact hd
    | none =>
      rw [dictGet_append_right _ (by rw [dictGet_filter_ne doc hk]; exact hd)]
      have h2 : "parts" ≠ k := Ne.symm hk
      simp [dictGet, h2]
  · show dictGet ((doc.filter fun kv => kv.1 != "parts")
        ++ [("parts", Json.arr (transform_parts (pyGet doc "parts")))]) "parts" = _
    rw [dictGet_append_right _ (dictGet_filter_self doc "parts")]
    simp [dictGet]

/-- C7 (witness): passthrough at the document
`{"company": "Apple", "parts": {}}` and key `"company"`. -/
theorem C7_document_passthrough_witness :
    dictGet (transform_document [("company", Json.str "Apple"), ("parts", Json.obj [])])
        "company"
      = dictGet [("company", Json.str "Apple"), ("parts", Json.obj [])] "company"
    ∧ dictGet (transform_document [("company", Json.str "Apple"), ("parts", Json.obj [])])
        "parts"
      = some (Json.arr (transform_parts
          (pyGet [("company", Json.str "Apple"), ("parts", Json.obj [])] "parts"))) :=
  ⟨(C7_document_passthrough _).1 "company" (by decide),
   (C7_document_passthrough _).2⟩

/-! ### Claim C8: batch dispatch in `main` -/

/-- Fields of a record value (empty for non-records). -/
def fieldsOf : Json → List (String × Json)
  | .obj kvs => kvs
  | _ => []

/-- C8: a top-level list is normalized by transforming exactly its record
elements, preserving relative order and dropping the rest, and is returned
as a list; a top-level mapping is normalized directly, not wrapped in a
list. -/
theorem C8_batch_dispatch :
    (∀ ds : List Json, normalize_batch (.arr ds)
        = some (.arr ((ds.filter fun d => isObj d).map
            fun d => Json.obj (transform_document (fieldsOf d)))))
    ∧ ∀ kvs : List (String × Json),
        normalize_batch (.obj kvs) = some (.obj (transform_document kvs)) := by
  constructor
  · intro ds
    simp only [normalize_batch, Option.some.injEq]
    refine congrArg Json.arr ?_
    induction ds with
    | nil => rfl
    | cons d rest ih =>
      match d with
      | .obj kvs => exact congrArg₂ List.cons rfl ih
      | .null | .bool _ | .num _ | .str _ | .arr _ => exact ih
  · intro kvs
    rfl

/-! ### Claim C9: derived indices count dropped elements -/

/-- The section emitted for the record at position `i` of the input list
sits at output position "number of records before `i`" and, when the record
lacks a `section_id`, carries the id derived from `start + i` — the
position in the *original* list, so dropped non-record elements still
consume indices. -/
theorem sectionsFromList_derived_id (xs : List Json) :
    ∀ (start i : Nat) (kvs : List (String × Json)),
    xs.get? i = some (Json.obj kvs) → hasKey kvs "section_id" = false →
    (sectionsFromList start xs).get? ((xs.take i).filter isObj).length
      = some (Json.obj (kvs
          ++ [("section_id", Json.str ("section_" ++ Nat.repr (start + i)))])) := by
  induction xs with
  | nil =>
    intro start i kvs h hk
    simp [List.get?] at h
  | cons x rest ih =>
    intro start i kvs h hk
    match i with
    | 0 =>
      rw [List.get?_cons_zero] at h
      obtain rfl := Option.some.inj h
      simp only [List.take_zero, List.filter_nil, List.length_nil]
      simp only [sectionsFromList]
      rw [if_neg (by simp [hk])]
      rw [List.get?_cons_zero, Nat.add_zero]
    | j + 1 =>
      rw [List.get?_cons_succ] at h
      have hj := ih (start + 1) j kvs h hk
      rw [show start + 1 + j = start + (j + 1) from by omega] at hj
      match x with
      | .obj kvs' =>
        have hkey : isObj (Json.obj kvs') = true := rfl
        simpa [sectionsFromList, List.take_succ_cons, List.filter_cons, hkey,
          List.get?_cons_succ] using hj
      | .null | .bool _ | .num _ | .str _ | .arr _ =>
        simpa [sectionsFromList, List.take_succ_cons, List.filter_cons, isObj] using hj

/-- C9: for every list input to `transform_sections` and every position `i`
whose element is a record without a `section_id`, the emitted section is
that record extended with `section_id = "section_{i}"`, where `i` is the
element's position in the original input list — counting the non-record
elements that are dropped (the output position is the number of records
strictly before `i`).  Hence derived ids need not start at `section_0` or
be contiguous: for `[1, {"a": 1}]` the single output section has id
`"section_1"`, not `"section_0"`. -/
theorem C9_derived_index_counts_dropped :
    (∀ (xs : List Json) (i : Nat) (kvs : List (String × Json)),
        xs.get? i = some (Json.obj kvs) → hasKey kvs "section_id" = false →
        (transform_sections (.arr xs)).get? ((xs.take i).filter isObj).length
          = some (Json.obj (kvs ++ [("section_id", Json.str ("section_" ++ Nat.repr i))])))
    ∧ transform_sections (.arr [Json.num 1, Json.obj [("a", Json.num 1)]])
      = [Json.obj [("a", Json.num 1), ("section_id", Json.str "section_1")]]
    ∧ ("section_1" : String) ≠ "section_0" := by
  refine ⟨?_, rfl, by decide⟩
  intro xs i kvs h hk
  have h0 := sectionsFromList_derived_id xs 0 i kvs h hk
  rwa [Nat.zero_add] at h0

/-- C9 (witness): the general positional theorem at input `[1, {"a": 1}]`
and position `1`: the record at position 1 (after one dropped non-record)
lands at output position 0 with id `"section_1"`. -/
theorem C9_derived_index_counts_dropped_witness :
    [Json.num 1, Json.obj [("a", Json.num 1)]].get? 1
        = some (Json.obj [("a", Json.num 1)])
    ∧ hasKey [("a", Json.num 1)] "section_id" = false
    ∧ (transform_sections (.arr [Json.num 1, Json.obj [("a", Json.num 1)]])).get?
        (([Json.num 1, Json.obj [("a", Json.num 1)]].take 1).filter isObj).length
      = some (Json.obj ([("a", Json.num 1)]
          ++ [("section_id", Json.str ("section_" ++ Nat.repr 1))])) :=
  ⟨rfl, rfl, C9_derived_index_counts_dropped.1 _ 1 _ rfl rfl⟩

/-! ### Claim C10: key presence vs truthiness -/

/-- C10: the list branch of `transform_sections` decides "already has an id"
by key *presence*: a record whose `section_id` is `null` or `""` is emitted
unchanged (first, general conjunct and the two concrete ones), whereas the
list branch of `transform_parts` tests `part_name` for *truthiness*, so an
empty-string `part_name` is replaced by the default `"Part"` (last
conjunct). -/
theorem C10_presence_vs_truthiness :
    (∀ (kvs : List (String × Json)) (rest : List Json) (idx : Nat),
        hasKey kvs "section_id" = true →
        sectionsFromList idx (Json.obj kvs :: rest)
          = Json.obj kvs :: sectionsFromList (idx + 1) rest)
    ∧ transform_sections (.arr [Json.obj [("section_id", Json.null)]])
      = [Json.obj [("section_id", Json.null)]]
    ∧ transform_sections (.arr [Json.obj [("section_id", Json.str "")]])
      = [Json.obj [("section_id", Json.str "")]]
    ∧ transform_parts (.arr [Json.obj [("part_name", Json.str "")]])
      = [Json.obj [("part_name", Json.str "Part"), ("sections", Json.arr [])]] := by
  refine ⟨?_, rfl, rfl, rfl⟩
  intro kvs rest idx h
  simp only [sectionsFromList]
  rw [if_pos h]

/-- C10 (witness): the general presence conjunct applied to a concrete
record with a `null` id. -/
theorem C10_presence_vs_truthiness_witness :
    hasKey [("section_id", Json.null)] "section_id" = true
    ∧ sectionsFromList 0 [Json.obj [("section_id", Json.null)], Json.num 7]
        = Json.obj [("section_id", Json.null)] :: sectionsFromList 1 [Json.num 7] :=
  ⟨rfl, C10_presence_vs_truthiness.1 [("section_id", Json.null)] [Json.num 7] 0 rfl⟩

